import Mathlib

/-!
# Verification of the `cmv` distinct-count estimator (CVM algorithm)

Shallow embedding of `src/lib.rs` of the `cmv` crate.  The Rust code keeps
a `HashSet<T, S>` of retained items, a `round` counter and a fixed
`capacity`; `insert` draws a Bernoulli trial with probability `1/2^round`
(via `rng.random_ratio(1, 1 << round)`, where the denominator is a `u32`),
inserts on success and removes on failure, and when the sample size equals
the capacity it retains every element independently with probability `1/2`
and increments the round.  `count` returns `sample_size as u128 << round`.

Modelling choices, each forced by the source:
* The `HashSet` is modelled as a duplicate-free `List`; the list order
  stands for the hash set's (unspecified, but per-estimator deterministic)
  iteration order used by `retain`.
* The randomness source (`&mut dyn RngCore`) is modelled as an infinite
  stream `g : Nat → Nat` of raw uniform draws together with a cursor that
  counts how many draws were consumed; `random_ratio(1, d)` on the i-th
  draw is `g i % d == 0` (a uniform value in `[0, d)` compared against the
  numerator `1`), and each trial advances the cursor by one.
* Machine arithmetic is modelled on `Nat` with explicit overflow behaviour:
  the denominator `1u32 << round` of `random_ratio` overflows its shift
  when `round ≥ 32`, and the `u128` shift in `count` overflows its shift
  when `round ≥ 128`.  With overflow checks on (the semantics `cargo
  test` runs under) either overflow is a panic, so both operations return
  `Option`, `none` meaning panic.
-/

/-- A randomness source: the stream of raw uniform draws produced by the
`RngCore`.  `g i` is the i-th value drawn; a `random_ratio(1, d)` trial
reduces it modulo `d`. -/
def Rng : Type := Nat → Nat

/-- The all-zero randomness source: every Bernoulli trial succeeds
(`0 % d == 0` for any positive `d`).  A legitimate `RngCore` can produce
this output for any finite prefix. -/
def zeroRng : Rng := fun _ => 0

/-- `fn prob_keep(rng, round) -> bool { rng.random_ratio(1, 1 << round) }`.
The denominator `1 << round` is a `u32` shift, which overflows (panics
under overflow checks) when `round ≥ 32`; otherwise the trial succeeds iff
the raw draw is `0` modulo `2^round`, i.e. with probability `1/2^round`. -/
def prob_keep (g : Rng) (i : Nat) (round : Nat) : Option Bool :=
  if round < 32 then some (g i % 2 ^ round == 0) else none

/-- Estimator state: `capacity`, `round` and the retained sample `set`
(the `HashSet`, as a duplicate-free list in iteration order). -/
structure Cmv (α : Type) where
  capacity : Nat
  round : Nat
  set : List α
deriving DecidableEq

namespace Cmv

variable {α : Type} [DecidableEq α]

/-- `HashSet::insert`: add the item if it is not already present. -/
def listInsert (s : List α) (x : α) : List α :=
  if x ∈ s then s else s ++ [x]

/-- `HashSet::remove`: drop the item if present. -/
def listRemove (s : List α) (x : α) : List α :=
  s.filter (fun y => ! (y == x))

/-- `HashSet::retain(|_| prob_keep(rng, 1))`: one Bernoulli(1/2) trial per
element, consumed in iteration order; returns the surviving elements and
the advanced rng cursor.  (`prob_keep(rng, 1)` never overflows: `1 < 32`.) -/
def retainHalf (g : Rng) : List α → Nat → List α × Nat
  | [], i => ([], i)
  | x :: xs, i =>
    let r := retainHalf g xs (i + 1)
    if g i % 2 == 0 then (x :: r.1, r.2) else (r.1, r.2)

/-- `Cmv::with_capacity`: no validation of the capacity is performed; the
estimator starts with round 0 and an empty sample. -/
def with_capacity (α : Type) (capacity : Nat) : Cmv α :=
  { capacity := capacity, round := 0, set := [] }

/-- `Cmv::with_capacity_and_hasher`: identical state; the hasher only
fixes the iteration order, which the list order models. -/
def with_capacity_and_hasher (α : Type) (capacity : Nat) : Cmv α :=
  { capacity := capacity, round := 0, set := [] }

/-- `Cmv::insert`: draw the keep-trial, insert or remove the item, then
compact (retain each element with probability 1/2 and bump the round)
exactly when the sample size equals the capacity.  Returns `none` when the
trial's denominator shift overflows (panic), otherwise the new state and
rng cursor. -/
def insert (c : Cmv α) (x : α) (g : Rng) (i : Nat) : Option (Cmv α × Nat) :=
  match prob_keep g i c.round with
  | none => none
  | some keep =>
    let s1 := if keep then listInsert c.set x else listRemove c.set x
    if s1.length = c.capacity then
      let r := retainHalf g s1 (i + 1)
      some ({ c with set := r.1, round := c.round + 1 }, r.2)
    else
      some ({ c with set := s1 }, i + 1)

/-- `Cmv::sample_size`: the number of retained items. -/
def sample_size (c : Cmv α) : Nat :=
  c.set.length

/-- `Cmv::count`: `(sample_size as u128) << round`.  The `u128` shift
overflows (panics) when `round ≥ 128`; otherwise bits shifted past the
128-bit width are silently discarded, i.e. the result is taken mod
`2^128`. -/
def count (c : Cmv α) : Option Nat :=
  if c.round < 128 then some (sample_size c * 2 ^ c.round % 2 ^ 128) else none

/-- Whether this `insert` call fires a compaction: the trigger
`self.set.len() == self.capacity` evaluated after the membership update
(`none` when the trial itself panics). -/
def compaction_fires (c : Cmv α) (x : α) (g : Rng) (i : Nat) : Option Bool :=
  (prob_keep g i c.round).map
    (fun keep =>
      (if keep then listInsert c.set x else listRemove c.set x).length == c.capacity)

/-- The insert algorithm exactly as the specification words it (spec §4.1 /
claim C2): draw one Bernoulli trial with success probability `1/2^round`;
on success insert the item into the sample, on failure remove it if
present; then, exactly when the sample size equals the capacity, retain
each sample element independently with probability 1/2 and increment the
round.  The spec's `2^round` carries no machine width, so this function is
total. -/
def spec_insert (c : Cmv α) (x : α) (g : Rng) (i : Nat) : Cmv α × Nat :=
  let keep := g i % 2 ^ c.round == 0
  let s1 := if keep then listInsert c.set x else listRemove c.set x
  if s1.length = c.capacity then
    let r := retainHalf g s1 (i + 1)
    ({ capacity := c.capacity, round := c.round + 1, set := r.1 }, r.2)
  else
    ({ capacity := c.capacity, round := c.round, set := s1 }, i + 1)

/-- Fold `insert` over a stream of items, threading the rng cursor and
stopping (with `none`) at the first panic. -/
def runList (c : Cmv α) (xs : List α) (g : Rng) (i : Nat) : Option (Cmv α × Nat) :=
  match xs with
  | [] => some (c, i)
  | x :: rest =>
    match insert c x g i with
    | none => none
    | some ci => runList ci.1 rest g ci.2

/-- The observable triple `(round, sample_size, count)` of a state. -/
def observe (c : Cmv α) : Nat × Nat × Option Nat :=
  (c.round, sample_size c, count c)

/-- The trace of observable triples after every step of a run, up to the
first panic (`none` marks the panic and ends the trace). -/
def obsTrace (c : Cmv α) (xs : List α) (g : Rng) (i : Nat) :
    List (Option (Nat × Nat × Option Nat)) :=
  match xs with
  | [] => []
  | x :: rest =>
    match insert c x g i with
    | none => [none]
    | some ci => some (observe ci.1) :: obsTrace ci.1 rest g ci.2

end Cmv

open Cmv

section Helpers

variable {α : Type} [DecidableEq α]

lemma listInsert_length_pos (s : List α) (x : α) : 0 < (listInsert s x).length := by
  unfold listInsert
  by_cases h : x ∈ s
  · simpa [h, List.length_pos] using List.ne_nil_of_mem h
  · simp [h]

lemma prob_keep_round_zero (g : Rng) (i : Nat) : prob_keep g i 0 = some true := by
  simp [prob_keep, Nat.mod_one]

/-- Eliminator for a successful `insert`: expose the trial outcome and
which branch produced the result. -/
lemma insert_some_elim {c : Cmv α} {x : α} {g : Rng} {i : Nat} {p : Cmv α × Nat}
    (h : Cmv.insert c x g i = some p) :
    ∃ keep, prob_keep g i c.round = some keep ∧
      ((if keep then listInsert c.set x else listRemove c.set x).length = c.capacity ∧
        p = ({ c with
                set := (retainHalf g (if keep then listInsert c.set x else listRemove c.set x) (i + 1)).1,
                round := c.round + 1 },
              (retainHalf g (if keep then listInsert c.set x else listRemove c.set x) (i + 1)).2) ∨
       (if keep then listInsert c.set x else listRemove c.set x).length ≠ c.capacity ∧
        p = ({ c with set := if keep then listInsert c.set x else listRemove c.set x }, i + 1)) := by
  unfold Cmv.insert at h
  cases hk : prob_keep g i c.round with
  | none => rw [hk] at h; cases h
  | some keep =>
    rw [hk] at h
    refine ⟨keep, rfl, ?_⟩
    simp only at h
    by_cases hkeep : keep = true
    · simp only [if_pos hkeep] at h ⊢
      by_cases hfull : (listInsert c.set x).length = c.capacity
      · rw [if_pos hfull] at h
        exact Or.inl ⟨hfull, (Option.some.inj h).symm⟩
      · rw [if_neg hfull] at h
        exact Or.inr ⟨hfull, (Option.some.inj h).symm⟩
    · simp only [if_neg hkeep] at h ⊢
      by_cases hfull : (listRemove c.set x).length = c.capacity
      · rw [if_pos hfull] at h
        exact Or.inl ⟨hfull, (Option.some.inj h).symm⟩
      · rw [if_neg hfull] at h
        exact Or.inr ⟨hfull, (Option.some.inj h).symm⟩

lemma insert_round_le {c : Cmv α} {x : α} {g : Rng} {i : Nat} {p : Cmv α × Nat}
    (h : Cmv.insert c x g i = some p) : c.round ≤ p.1.round := by
  obtain ⟨keep, -, hcase | hcase⟩ := insert_some_elim h
  · rw [hcase.2]; exact Nat.le_succ _
  · rw [hcase.2]

lemma runList_round_le {xs : List α} {c : Cmv α} {g : Rng} {i : Nat} {p : Cmv α × Nat}
    (h : runList c xs g i = some p) : c.round ≤ p.1.round := by
  induction xs generalizing c i with
  | nil =>
    unfold runList at h
    rw [← Option.some.inj h]
  | cons y rest ih =>
    unfold runList at h
    cases hstep : Cmv.insert c y g i with
    | none => rw [hstep] at h; cases h
    | some ci =>
      rw [hstep] at h
      exact le_trans (insert_round_le hstep) (ih h)

end Helpers

/-- C4 counterexample: construction with capacity 0 does not fail.
`Cmv::with_capacity(0)` performs no validation and returns a usable
estimator with capacity 0, round 0 and an empty sample — the crate has no
error type at all, contradicting the claim that an `InvalidConfiguration`
error is raised for `capacity < 1`. -/
theorem with_capacity_zero_succeeds :
    (with_capacity ℕ 0).capacity = 0 ∧ (with_capacity ℕ 0).round = 0 ∧
      sample_size (with_capacity ℕ 0) = 0 :=
  ⟨rfl, rfl, rfl⟩

/-- C4 (amended): construction never fails; for every capacity, including
0, both constructors return an estimator with the given capacity, round 0
and an empty sample, with no validation and no error path. -/
theorem with_capacity_no_validation (β : Type) (cap : Nat) :
    with_capacity β cap = { capacity := cap, round := 0, set := [] } ∧
    with_capacity_and_hasher β cap = { capacity := cap, round := 0, set := [] } :=
  ⟨rfl, rfl⟩

/-- C8: a freshly constructed estimator (any valid capacity, before any
insert) has `round() = 0`, `sample_size() = 0` and `count() = 0`. -/
theorem fresh_estimator_zero_state (β : Type) (cap : Nat) (h : 1 ≤ cap) :
    (with_capacity β cap).round = 0 ∧ sample_size (with_capacity β cap) = 0 ∧
      count (with_capacity β cap) = some 0 := by
  refine ⟨rfl, rfl, ?_⟩
  simp [count, sample_size, with_capacity]

/-- C8 witness at capacity 4. -/
theorem fresh_estimator_zero_state_witness :
    (with_capacity ℕ 4).round = 0 ∧ sample_size (with_capacity ℕ 4) = 0 ∧
      count (with_capacity ℕ 4) = some 0 :=
  fresh_estimator_zero_state ℕ 4 (by decide)

/-- C1: the bound `sample_size() ≤ capacity` is violated by the code.
With capacity 2 and a randomness source whose draws are all 0 (every
Bernoulli trial succeeds — realizable output of an `RngCore`), inserting
the distinct items 1, 2, 3 gives: 1 and 2 fill the sample, the compaction
fires but retains both elements, and inserting 3 then grows the sample to
size 3 > 2; since the trigger tests `len == capacity` and the length is
now past the capacity, no further compaction can ever fire. -/
theorem sample_size_exceeds_capacity :
    (runList (with_capacity ℕ 2) [1, 2, 3] zeroRng 0).map
      (fun p => (sample_size p.1, p.1.capacity)) = some (3, 2) := by
  decide

/-- C5: `insert` is not total.  With capacity 1 and the all-zero
randomness source, every insert of item 0 fires a compaction that retains
the single element, so `round` reaches 32 after 32 inserts; the 33rd
insert evaluates `1u32 << 32` in `prob_keep`, which overflows (a panic
under overflow checks, the semantics the crate's own tests run under). -/
theorem insert_stream_panics_at_round_32 :
    runList (with_capacity ℕ 1) (List.replicate 33 0) zeroRng 0 = none := by
  decide

/-- C2 counterexample: at a state with `round() = 32` (reachable in 32
inserts, see the round-32 panic above), `insert` does not perform the
specified steps: `prob_keep`'s `u32` shift overflows before the Bernoulli
trial can be drawn, so the call panics instead of producing the state the
spec's step description prescribes. -/
theorem insert_at_round_32_not_spec :
    Cmv.insert (⟨1, 32, []⟩ : Cmv ℕ) 0 zeroRng 0 ≠
      some (spec_insert (⟨1, 32, []⟩ : Cmv ℕ) 0 zeroRng 0) := by
  decide

/-- C2 (amended): for every estimator state with `round() < 32`, `insert`
performs exactly the specified steps — one Bernoulli trial with success
probability `1/2^round` (always succeeding at round 0), insert on success
and remove on failure, then, exactly when the sample size equals the
capacity, an independent probability-1/2 retention per element followed by
a round increment.  At `round() ≥ 32` the trial's denominator shift
overflows instead. -/
theorem insert_follows_spec_steps {α : Type} [DecidableEq α]
    (c : Cmv α) (x : α) (g : Rng) (i : Nat) (h : c.round < 32) :
    Cmv.insert c x g i = some (spec_insert c x g i) ∧
    (c.round = 0 → prob_keep g i c.round = some true) := by
  constructor
  · unfold Cmv.insert spec_insert prob_keep
    rw [if_pos h]
    simp only
    by_cases hfull :
        (if (g i % 2 ^ c.round == 0) = true
          then listInsert c.set x else listRemove c.set x).length = c.capacity
    · rw [if_pos hfull, if_pos hfull]
    · rw [if_neg hfull, if_neg hfull]
  · intro h0
    rw [h0]
    exact prob_keep_round_zero g i

/-- C2 witness: a concrete insert at round 0 follows the spec's steps and
its trial succeeds with certainty. -/
theorem insert_follows_spec_steps_witness :
    Cmv.insert (with_capacity ℕ 2) 5 zeroRng 0 =
      some (spec_insert (with_capacity ℕ 2) 5 zeroRng 0) ∧
    prob_keep zeroRng 0 (with_capacity ℕ 2).round = some true :=
  ⟨(insert_follows_spec_steps (with_capacity ℕ 2) 5 zeroRng 0 (by decide)).1,
   (insert_follows_spec_steps (with_capacity ℕ 2) 5 zeroRng 0 (by decide)).2 rfl⟩

/-- C3: `count()` is `sample_size() * 2^round()` computed in a 128-bit
unsigned integer: for every state below the shift-overflow bound the
result is the product reduced mod `2^128`, and exactly the product
whenever it fits in 128 bits.  `count` is a pure function of the state
(`&self` in the source), so it has no side effects. -/
theorem count_is_sample_size_shl_round (β : Type) (c : Cmv β) (h : c.round < 128) :
    count c = some (sample_size c * 2 ^ c.round % 2 ^ 128) ∧
    (sample_size c * 2 ^ c.round < 2 ^ 128 →
      count c = some (sample_size c * 2 ^ c.round)) := by
  constructor
  · simp [count, h]
  · intro hlt
    unfold count
    rw [if_pos h, Nat.mod_eq_of_lt hlt]

/-- C3 witness: at a state with two retained items and round 3 the
estimate is exactly `2 * 2^3`. -/
theorem count_is_sample_size_shl_round_witness :
    count (⟨2, 3, [4, 7]⟩ : Cmv ℕ) =
      some (sample_size (⟨2, 3, [4, 7]⟩ : Cmv ℕ) * 2 ^ (⟨2, 3, [4, 7]⟩ : Cmv ℕ).round) :=
  (count_is_sample_size_shl_round ℕ ⟨2, 3, [4, 7]⟩ (by decide)).2 (by decide)

/-- C6: `round()` starts at 0, changes by at most +1 per completed
`insert` call and by +1 exactly when that call's compaction trigger fired,
and is non-decreasing along every run. -/
theorem round_monotonic (β : Type) [DecidableEq β] :
    (∀ cap, (with_capacity β cap).round = 0) ∧
    (∀ (c : Cmv β) (x : β) (g : Rng) (i : Nat) (p : Cmv β × Nat),
        Cmv.insert c x g i = some p →
        (p.1.round = c.round ∨ p.1.round = c.round + 1) ∧
        (p.1.round = c.round + 1 ↔ compaction_fires c x g i = some true)) ∧
    (∀ (c : Cmv β) (xs : List β) (g : Rng) (i : Nat) (p : Cmv β × Nat),
        runList c xs g i = some p → c.round ≤ p.1.round) := by
  refine ⟨fun _ => rfl, ?_, fun c xs g i p h => runList_round_le h⟩
  intro c x g i p h
  obtain ⟨keep, hk, hcase | hcase⟩ := insert_some_elim h
  · have hcf : compaction_fires c x g i = some true := by
      unfold compaction_fires
      rw [hk]
      simp [hcase.1]
    rw [hcase.2, hcf]
    exact ⟨Or.inr rfl, by simp⟩
  · have hcf : compaction_fires c x g i = some false := by
      unfold compaction_fires
      rw [hk]
      simp [hcase.1]
    rw [hcase.2, hcf]
    refine ⟨Or.inl rfl, ?_, ?_⟩
    · intro hc
      have hc2 : c.round = c.round + 1 := hc
      omega
    · intro hc
      exact absurd hc (by decide)

/-- C6 witness: along the concrete two-item run that fires one compaction,
the round is non-decreasing. -/
theorem round_monotonic_witness :
    (with_capacity ℕ 2).round ≤ (⟨2, 1, [1, 2]⟩ : Cmv ℕ).round :=
  (round_monotonic ℕ).2.2 (with_capacity ℕ 2) [1, 2] zeroRng 0 (⟨2, 1, [1, 2]⟩, 4)
    (by decide)

/-- C7: determinism.  Two estimators built with the same capacity (and the
same hasher policy, which fixes the retain iteration order the list
models), fed the identical item sequence and randomness source, produce
identical `(round, sample_size, count)` triples after every step. -/
theorem deterministic_replay (β : Type) [DecidableEq β] (cap : Nat) (xs : List β)
    (g1 g2 : Rng) (c1 c2 : Cmv β)
    (h1 : c1 = with_capacity β cap) (h2 : c2 = with_capacity β cap)
    (hg : ∀ n, g1 n = g2 n) :
    obsTrace c1 xs g1 0 = obsTrace c2 xs g2 0 := by
  have hgg : g1 = g2 := funext hg
  rw [h1, h2, hgg]

/-- C7 witness at a concrete capacity, stream and seed. -/
theorem deterministic_replay_witness :
    obsTrace (with_capacity ℕ 2) [1, 2] zeroRng 0 =
      obsTrace (with_capacity ℕ 2) [1, 2] zeroRng 0 :=
  deterministic_replay ℕ 2 [1, 2] zeroRng zeroRng _ _ rfl rfl (fun _ => rfl)

section MoreHelpers

variable {α : Type} [DecidableEq α]

lemma runList_cons_some {c c1 : Cmv α} {x : α} {t : List α} {g : Rng} {i i1 : Nat}
    (h : Cmv.insert c x g i = some (c1, i1)) :
    runList c (x :: t) g i = runList c1 t g i1 := by
  simp only [runList, h]

lemma insert_success_no_compaction {c : Cmv α} {x : α} {g : Rng} {i : Nat}
    (h32 : c.round < 32) (hsucc : g i % 2 ^ c.round = 0)
    (hfull : (listInsert c.set x).length ≠ c.capacity) :
    Cmv.insert c x g i = some ({ c with set := listInsert c.set x }, i + 1) := by
  have hk : prob_keep g i c.round = some true := by
    simp [prob_keep, h32, hsucc]
  unfold Cmv.insert
  rw [hk]
  simp [hfull]

lemma insert_failure_no_compaction {c : Cmv α} {x : α} {g : Rng} {i : Nat}
    (h32 : c.round < 32) (hfail : g i % 2 ^ c.round ≠ 0)
    (hfull : (listRemove c.set x).length ≠ c.capacity) :
    Cmv.insert c x g i = some ({ c with set := listRemove c.set x }, i + 1) := by
  have hk : prob_keep g i c.round = some false := by
    simp [prob_keep, h32, hfail]
  unfold Cmv.insert
  rw [hk]
  simp [hfull]

lemma mem_listInsert_self (s : List α) (x : α) : x ∈ listInsert s x := by
  unfold listInsert
  by_cases h : x ∈ s
  · simp [h]
  · simp [h]

lemma listInsert_idem (s : List α) (x : α) :
    listInsert (listInsert s x) x = listInsert s x := by
  have h := mem_listInsert_self s x
  conv_lhs => rw [listInsert]
  rw [if_pos h]

lemma listRemove_cons (a : α) (t : List α) (x : α) :
    listRemove (a :: t) x = if a = x then listRemove t x else a :: listRemove t x := by
  unfold listRemove
  by_cases hax : a = x
  · rw [if_pos hax, List.filter_cons, if_neg (by simp [hax])]
  · rw [if_neg hax, List.filter_cons, if_pos (by simp [hax])]

lemma listRemove_of_not_mem {s : List α} {x : α} (h : x ∉ s) : listRemove s x = s := by
  induction s with
  | nil => rfl
  | cons a t ih =>
    rw [listRemove_cons, if_neg (by intro he; exact h (he ▸ List.mem_cons_self a t))]
    rw [ih (fun hx => h (List.mem_cons_of_mem a hx))]

lemma listRemove_length_of_mem {s : List α} {x : α} (hnd : s.Nodup) (hmem : x ∈ s) :
    (listRemove s x).length + 1 = s.length := by
  induction s with
  | nil => cases hmem
  | cons a t ih =>
    rw [List.nodup_cons] at hnd
    rw [listRemove_cons]
    by_cases hax : a = x
    · rw [if_pos hax]
      subst hax
      rw [listRemove_of_not_mem hnd.1]
      rfl
    · rw [if_neg hax]
      have hxt : x ∈ t := by
        cases hmem with
        | head => exact absurd rfl hax
        | tail _ h => exact h
      have := ih hnd.2 hxt
      simp only [List.length_cons]
      omega

lemma listInsert_nodup {s : List α} (h : s.Nodup) (x : α) : (listInsert s x).Nodup := by
  unfold listInsert
  by_cases hx : x ∈ s
  · rw [if_pos hx]
    exact h
  · rw [if_neg hx]
    rw [List.nodup_append]
    refine ⟨h, List.nodup_singleton x, fun a ha hax => hx ?_⟩
    rw [List.mem_singleton] at hax
    exact hax ▸ ha

lemma mem_listInsert (s : List α) (x y : α) :
    y ∈ listInsert s x ↔ y ∈ s ∨ y = x := by
  unfold listInsert
  by_cases hx : x ∈ s
  · rw [if_pos hx]
    exact ⟨Or.inl, fun h => h.elim id (fun he => he ▸ hx)⟩
  · rw [if_neg hx]
    simp

lemma foldl_listInsert_nodup (xs : List α) :
    ∀ s : List α, s.Nodup → (xs.foldl listInsert s).Nodup := by
  induction xs with
  | nil => exact fun s h => h
  | cons x t ih =>
    intro s h
    rw [List.foldl_cons]
    exact ih _ (listInsert_nodup h x)

lemma mem_foldl_listInsert (xs : List α) :
    ∀ (s : List α) (y : α), y ∈ xs.foldl listInsert s ↔ y ∈ s ∨ y ∈ xs := by
  induction xs with
  | nil => intro s y; simp
  | cons x t ih =>
    intro s y
    rw [List.foldl_cons, ih, mem_listInsert, List.mem_cons]
    tauto

lemma foldl_listInsert_length_eq_dedup (xs : List α) :
    (xs.foldl listInsert []).length = xs.dedup.length := by
  have h1 : (xs.foldl listInsert []).Nodup := foldl_listInsert_nodup xs [] List.nodup_nil
  have h2 : xs.dedup.Nodup := List.nodup_dedup xs
  have hperm : List.Perm (xs.foldl listInsert []) xs.dedup := by
    rw [List.perm_ext_iff_of_nodup h1 h2]
    intro a
    rw [mem_foldl_listInsert, List.mem_dedup]
    simp
  exact hperm.length_eq

lemma runList_capacity_zero (xs : List α) :
    ∀ (s : List α) (g : Rng) (i : Nat),
      runList (⟨0, 0, s⟩ : Cmv α) xs g i =
        some (⟨0, 0, xs.foldl listInsert s⟩, i + xs.length) := by
  induction xs with
  | nil => intro s g i; simp [runList]
  | cons x t ih =>
    intro s g i
    have hstep : Cmv.insert (⟨0, 0, s⟩ : Cmv α) x g i =
        some (⟨0, 0, listInsert s x⟩, i + 1) := by
      apply insert_success_no_compaction
      · show (0 : Nat) < 32
        omega
      · show g i % 2 ^ 0 = 0
        simp [Nat.mod_one]
      · show (listInsert s x).length ≠ 0
        have := listInsert_length_pos s x
        omega
    rw [runList_cons_some hstep, ih]
    rw [List.foldl_cons, List.length_cons,
      show i + 1 + t.length = i + (t.length + 1) from by omega]

end MoreHelpers

/-- C9: duplicate handling before any compaction.  (1) Inserting the same
item `k+1` times in immediate succession, when every trial succeeds and no
compaction fires, changes the sample only at the first insertion: the run
ends with the sample `listInsert set x` reached after the first insert,
each repeat being a no-op on the set.  (2) Every completed insert whose
compaction trigger did not fire consumes exactly one Bernoulli trial.
(3) A repeat whose trial fails evicts the item: the sample loses exactly
that one element. -/
theorem duplicate_insert_idempotent (β : Type) [DecidableEq β] :
    (∀ (c : Cmv β) (x : β) (g : Rng) (i k : Nat),
        c.round < 32 →
        (listInsert c.set x).length ≠ c.capacity →
        (∀ j, j < k + 1 → g (i + j) % 2 ^ c.round = 0) →
        runList c (List.replicate (k + 1) x) g i =
          some ({ c with set := listInsert c.set x }, i + (k + 1))) ∧
    (∀ (c : Cmv β) (x : β) (g : Rng) (i : Nat) (p : Cmv β × Nat),
        Cmv.insert c x g i = some p →
        compaction_fires c x g i = some false → p.2 = i + 1) ∧
    (∀ (c : Cmv β) (x : β) (g : Rng) (i : Nat),
        c.round < 32 → c.set.Nodup → x ∈ c.set → g i % 2 ^ c.round ≠ 0 →
        (listRemove c.set x).length ≠ c.capacity →
        Cmv.insert c x g i = some ({ c with set := listRemove c.set x }, i + 1) ∧
        sample_size ({ c with set := listRemove c.set x } : Cmv β) + 1 =
          sample_size c) := by
  refine ⟨?_, ?_, ?_⟩
  · intro c x g i k
    revert c i
    induction k with
    | zero =>
      intro c i h32 hfull htr
      rw [List.replicate_succ, List.replicate_zero]
      rw [runList_cons_some
        (insert_success_no_compaction h32 (by simpa using htr 0 (by omega)) hfull)]
      rfl
    | succ k ih =>
      intro c i h32 hfull htr
      rw [List.replicate_succ]
      rw [runList_cons_some
        (insert_success_no_compaction h32 (by simpa using htr 0 (by omega)) hfull)]
      have h32b : ({ c with set := listInsert c.set x } : Cmv β).round < 32 := h32
      have hfullb :
          (listInsert ({ c with set := listInsert c.set x } : Cmv β).set x).length ≠
            ({ c with set := listInsert c.set x } : Cmv β).capacity := by
        show (listInsert (listInsert c.set x) x).length ≠ c.capacity
        rw [listInsert_idem]
        exact hfull
      have htrb : ∀ j, j < k + 1 →
          g (i + 1 + j) % 2 ^ ({ c with set := listInsert c.set x } : Cmv β).round = 0 := by
        intro j hj
        show g (i + 1 + j) % 2 ^ c.round = 0
        rw [show i + 1 + j = i + (j + 1) from by omega]
        exact htr (j + 1) (by omega)
      rw [ih { c with set := listInsert c.set x } (i + 1) h32b hfullb htrb]
      have hsets : listInsert ({ c with set := listInsert c.set x } : Cmv β).set x =
          listInsert c.set x := by
        show listInsert (listInsert c.set x) x = listInsert c.set x
        exact listInsert_idem c.set x
      rw [hsets, show i + 1 + (k + 1) = i + (k + 1 + 1) from by omega]
  · intro c x g i p h hcf
    obtain ⟨keep, hk, hcase | hcase⟩ := insert_some_elim h
    · exfalso
      unfold compaction_fires at hcf
      rw [hk] at hcf
      simp [hcase.1] at hcf
    · rw [hcase.2]
  · intro c x g i h32 hnd hmem hfail hfull
    refine ⟨insert_failure_no_compaction h32 hfail hfull, ?_⟩
    show (listRemove c.set x).length + 1 = c.set.length
    exact listRemove_length_of_mem hnd hmem

/-- C9 witness: with capacity 3 and an always-succeeding source, inserting
the item 5 twice in a row leaves the sample at `[5]` after the first
insertion, each insert consuming one trial. -/
theorem duplicate_insert_idempotent_witness :
    runList (with_capacity ℕ 3) (List.replicate 2 5) zeroRng 0 =
      some ({ with_capacity ℕ 3 with
                set := listInsert (with_capacity ℕ 3).set 5 }, 0 + 2) :=
  (duplicate_insert_idempotent ℕ).1 (with_capacity ℕ 3) 5 zeroRng 0 1
    (by decide) (by decide) (fun j hj => rfl)

/-- C10: with capacity 0, construction succeeds; for every stream and
every randomness source the run never panics and never compacts — the
round stays 0, the sample is exactly the set of distinct items inserted
(so it grows without bound as distinct items arrive), `count()` equals the
exact number of distinct items inserted (whenever that number fits in 128
bits, as it always does for a machine-sized sample), and after any
nonempty stream the sample size can never again equal the capacity 0, so
the compaction trigger can never hold. -/
theorem capacity_zero_degenerate (β : Type) [DecidableEq β] :
    (with_capacity β 0).capacity = 0 ∧
    (∀ (xs : List β) (g : Rng) (i : Nat),
      runList (with_capacity β 0) xs g i =
        some (⟨0, 0, xs.foldl listInsert []⟩, i + xs.length) ∧
      (xs.foldl listInsert []).Nodup ∧
      (∀ y, y ∈ xs.foldl listInsert [] ↔ y ∈ xs) ∧
      sample_size (⟨0, 0, xs.foldl listInsert []⟩ : Cmv β) = xs.dedup.length ∧
      (xs.dedup.length < 2 ^ 128 →
        count (⟨0, 0, xs.foldl listInsert []⟩ : Cmv β) = some xs.dedup.length) ∧
      (xs ≠ [] →
        sample_size (⟨0, 0, xs.foldl listInsert []⟩ : Cmv β) ≠
          (with_capacity β 0).capacity)) := by
  refine ⟨rfl, ?_⟩
  intro xs g i
  have hlen : sample_size (⟨0, 0, xs.foldl listInsert []⟩ : Cmv β) = xs.dedup.length :=
    foldl_listInsert_length_eq_dedup xs
  refine ⟨runList_capacity_zero xs [] g i, foldl_listInsert_nodup xs [] List.nodup_nil,
    fun y => by rw [mem_foldl_listInsert]; simp, hlen, ?_, ?_⟩
  · intro hfit
    unfold count
    rw [if_pos (by omega : (0 : Nat) < 128)]
    show some (sample_size (⟨0, 0, xs.foldl listInsert []⟩ : Cmv β) * 2 ^ 0 % 2 ^ 128) =
      some xs.dedup.length
    rw [hlen, pow_zero, Nat.mul_one, Nat.mod_eq_of_lt hfit]
  · intro hne
    rw [hlen]
    show xs.dedup.length ≠ 0
    have : xs.dedup ≠ [] := fun hd => hne ((List.dedup_eq_nil xs).mp hd)
    simpa [List.length_eq_zero] using this

/-- C10 witness: the stream 5, 5, 7 with capacity 0 yields the exact
distinct count 2. -/
theorem capacity_zero_degenerate_witness :
    count (⟨0, 0, [5, 5, 7].foldl listInsert []⟩ : Cmv ℕ) =
      some ([5, 5, 7].dedup.length) :=
  (((capacity_zero_degenerate ℕ).2 [5, 5, 7] zeroRng 0).2.2.2.2.1) (by decide)
